import Mathlib

/-!
Verification of the Day 7 circuit resolver (src/day7/main.py).

The Python program parses a list of statement lines into initial wire
assignments and gate records, then resolves wire values by a fixpoint
loop that repeatedly evaluates any gate whose wire operands are all
present in the value map.  This file is a shallow embedding of that
program: wire names are Lean String values, values are Nat, the wire
value dictionary is an association list with Python dict insertion
semantics, and frozensets of operands are canonically sorted
duplicate-free lists.
-/

namespace Day7

/-- Split a character list at every occurrence of the separator
character.  This models splitting on a single-character separator:
consecutive separators produce empty segments. -/
def splitOnChar (sep : Char) : List Char → List (List Char)
  | [] => [[]]
  | c :: rest =>
    if c = sep then [] :: splitOnChar sep rest
    else
      match splitOnChar sep rest with
      | [] => [[c]]
      | p :: ps => (c :: p) :: ps

/-- Model of Python str.strip for ASCII whitespace: drop whitespace
characters from both ends. -/
def trimChars (l : List Char) : List Char :=
  ((l.dropWhile Char.isWhitespace).reverse.dropWhile Char.isWhitespace).reverse

/-- Model of Python str.strip on strings. -/
def pyStrip (s : String) : String :=
  (trimChars s.toList).asString

/-- Model of Python str.splitlines for newline-terminated text: split on
the newline character; the segment after the final newline forms a line
only when it is nonempty (so the empty string has no lines). -/
def pySplitlines (s : String) : List String :=
  let parts := (splitOnChar (Char.ofNat 10) s.toList).map List.asString
  if parts.getLast? = some ("") then parts.dropLast else parts

/-- The stripped statement lines the resolver iterates over:
input.strip().splitlines(), each line stripped (the per-line strip that
the Python loop applies before parsing). -/
def pyLines (input : String) : List String :=
  (pySplitlines (pyStrip input)).map pyStrip

/-- Split a line into space-separated tokens.  The source regexes are
concatenations of space-free tokens joined by single literal spaces, so
a line matches a statement shape exactly when its space-split token
list has the corresponding form. -/
def splitSpaces (s : String) : List String :=
  (splitOnChar (Char.ofNat 32) s.toList).map List.asString

/-- A token matching the wire pattern: one or more lowercase letters. -/
def isWireTok (s : String) : Bool :=
  !s.toList.isEmpty && s.toList.all (fun c => 'a' ≤ c && c ≤ 'z')

/-- A token matching the value pattern (and Python str.isdecimal): one
or more decimal digits. -/
def isValueTok (s : String) : Bool :=
  !s.toList.isEmpty && s.toList.all Char.isDigit

/-- A token matching the input pattern: a wire name or a literal. -/
def isInputTok (s : String) : Bool :=
  isWireTok s || isValueTok s

/-- Numeric value of a digit token (Python int on a decimal string). -/
def digitsToNat (s : String) : Nat :=
  s.toList.foldl (fun n c => n * 10 + (c.toNat - 48)) 0

/-- Lexicographic comparison of character lists, by code point. -/
def charListLt : List Char → List Char → Bool
  | [], [] => false
  | [], _ :: _ => true
  | _ :: _, [] => false
  | a :: as, b :: bs =>
    if a < b then true else if b < a then false else charListLt as bs

/-- Lexicographic comparison of strings, by code point. -/
def strLt (a b : String) : Bool := charListLt a.toList b.toList

/-- Insert into a sorted duplicate-free list, keeping it sorted and
duplicate-free.  Sorted duplicate-free lists are the canonical
representation of the frozensets of the source: two frozensets are
equal exactly when their canonical lists are equal. -/
def insertSortedBy {α : Type} [DecidableEq α] (lt : α → α → Bool) (a : α) : List α → List α
  | [] => [a]
  | b :: t =>
    if a = b then b :: t
    else if lt a b then a :: b :: t
    else b :: insertSortedBy lt a t

/-- MAX_VALUE: values are 16 bit integers, the maximum is 2^16 - 1. -/
def MAX_VALUE : Nat := 2 ^ 16 - 1

/-- The kind of a gate, together with kind-specific parameters.  This
is the class tag of the source dataclasses: two gates with different
kinds are never equal. -/
inductive GateKind : Type
  | conn : GateKind
  | band : GateKind
  | bor : GateKind
  | lshift : Nat → GateKind
  | rshift : Nat → GateKind
  | bnot : GateKind
deriving DecidableEq, Repr

/-- A gate record: kind, frozenset of wire operands, frozenset of
literal operands (both as canonical sorted lists), and output wire. -/
structure Gate : Type where
  kind : GateKind
  wire_inputs : List String
  static_inputs : List Nat
  output : String
deriving DecidableEq, Repr

/-- resolve_output_value of each gate subclass: the tuple unpacking of
the source (a, b = values) fails unless the argument count matches the
gate arity, which is modelled by returning none. -/
def resolve_output_value : GateKind → List Nat → Option Nat
  | GateKind.conn, [a] => some a
  | GateKind.band, [a, b] => some (a &&& b)
  | GateKind.bor, [a, b] => some (a ||| b)
  | GateKind.lshift k, [a] => some ((a <<< k) &&& MAX_VALUE)
  | GateKind.rshift k, [a] => some (a >>> k)
  | GateKind.bnot, [a] => some (MAX_VALUE - a)
  | _, _ => none

/-- classify_inputs: separate raw operand tokens into the wire set and
the static value set (a token of decimal digits is a value, anything
else a wire). -/
def classify_inputs (inputs : List String) : List String × List Nat :=
  inputs.foldl
    (fun acc s =>
      if isValueTok s then (acc.1, insertSortedBy Nat.blt (digitsToNat s) acc.2)
      else (insertSortedBy strLt s acc.1, acc.2))
    ([], [])

/-- The result of parsing one line: a direct value assignment or a
gate record. -/
inductive Statement : Type
  | assign : String → Nat → Statement
  | gate : Gate → Statement
deriving DecidableEq, Repr

/-- Build a gate statement from classified operand tokens. -/
def mkGate (k : GateKind) (operands : List String) (out : String) : Statement :=
  Statement.gate
    { kind := k
      wire_inputs := (classify_inputs operands).1
      static_inputs := (classify_inputs operands).2
      output := out }

/-- parse_line: match a stripped line against the seven statement
shapes, in source order.  The source tries seven anchored regexes; each
is a sequence of space-free tokens joined by single spaces, so matching
is decided on the space-split token list.  A line matching no shape
parses to none (the ParseError raise site). -/
def parse_line (line : String) : Option Statement :=
  match splitSpaces line with
  | [lhs, arrow, out] =>
    if arrow = "->" && isWireTok out then
      if isValueTok lhs then some (Statement.assign out (digitsToNat lhs))
      else if isInputTok lhs then some (mkGate GateKind.conn [lhs] out)
      else none
    else none
  | [nottok, operand, arrow, out] =>
    if nottok = "NOT" && isInputTok operand && arrow = "->" && isWireTok out then
      some (mkGate GateKind.bnot [operand] out)
    else none
  | [a, op, b, arrow, out] =>
    if arrow = "->" && isWireTok out then
      if op = "AND" && isInputTok a && isInputTok b then
        some (mkGate GateKind.band [a, b] out)
      else if op = "OR" && isInputTok a && isInputTok b then
        some (mkGate GateKind.bor [a, b] out)
      else if op = "LSHIFT" && isInputTok a && isValueTok b then
        some (mkGate (GateKind.lshift (digitsToNat b)) [a] out)
      else if op = "RSHIFT" && isInputTok a && isValueTok b then
        some (mkGate (GateKind.rshift (digitsToNat b)) [a] out)
      else none
    else none
  | _ => none

/-- The wire value dictionary: an association list in insertion order,
with at most one entry per key once built by dictInsert. -/
abbrev WireMap : Type := List (String × Nat)

/-- First-match lookup in the wire value dictionary. -/
def lookupWire : WireMap → String → Option Nat
  | [], _ => none
  | p :: t, w => if w = p.1 then some p.2 else lookupWire t w

/-- Python dict item assignment: overwrite the value in place when the
key is present, append a new entry otherwise. -/
def dictInsert (m : WireMap) (k : String) (v : Nat) : WireMap :=
  match lookupWire m k with
  | some _ => m.map (fun p => if p.1 = k then (k, v) else p)
  | none => m ++ [(k, v)]

/-- dict(initial_values): build the dictionary from the assignment
list, later entries for the same key overwriting earlier ones. -/
def dictOf (l : List (String × Nat)) : WireMap :=
  l.foldl (fun m p => dictInsert m p.1 p.2) []

/-- A gate is eligible when all of its wire operands are keys of the
wire value dictionary (the issubset check of the source). -/
def eligible (m : WireMap) (g : Gate) : Bool :=
  g.wire_inputs.all (fun w => (lookupWire m w).isSome)

/-- Evaluate an eligible gate: pass the looked-up wire operand values
followed by the static values to resolve_output_value.  The source
iterates its frozensets in an unspecified order; the canonical sorted
order is used here, which agrees with every possible source order
because AND and OR are commutative and all other kinds take at most one
operand value. -/
def evalGate (m : WireMap) (g : Gate) : Option Nat :=
  resolve_output_value g.kind
    (g.wire_inputs.map (fun w => (lookupWire m w).getD 0) ++ g.static_inputs)

/-- The errors resolution can signal: an unparseable line, a stuck
fixpoint (no eligible gate while gates remain), and the arity failure
of tuple unpacking inside resolve_output_value. -/
inductive CircuitError : Type
  | parseError : String → CircuitError
  | unsatisfiableCircuit : CircuitError
  | arityError : CircuitError
deriving DecidableEq, Repr

/-- The fixpoint while-loop, with an explicit iteration budget.  Each
successful iteration finds the first eligible gate, evaluates it,
records its output and removes it from the unresolved list; none means
the budget was exhausted before the loop exited (which never happens
with budget at least the gate count). -/
def loopF : Nat → WireMap → List Gate → Option (Except CircuitError WireMap)
  | _, m, [] => some (Except.ok m)
  | 0, _, _ :: _ => none
  | fuel + 1, m, g0 :: gs =>
    match (g0 :: gs).find? (fun g => eligible m g) with
    | none => some (Except.error CircuitError.unsatisfiableCircuit)
    | some g =>
      match evalGate m g with
      | none => some (Except.error CircuitError.arityError)
      | some v => loopF fuel (dictInsert m g.output v) ((g0 :: gs).erase g)

/-- Parse the statement lines in order: append assignments to the
initial value list, add gates to the unresolved gate set (set semantics:
a gate equal to one already present is not added again), and fail with
a ParseError carrying the first unparseable line. -/
def parseLines : List String → Except CircuitError (List (String × Nat) × List Gate)
  | [] => Except.ok ([], [])
  | l :: ls =>
    match parse_line l with
    | none => Except.error (CircuitError.parseError l)
    | some s =>
      match parseLines ls with
      | Except.error e => Except.error e
      | Except.ok (inits, gates) =>
        match s with
        | Statement.assign w v => Except.ok ((w, v) :: inits, gates)
        | Statement.gate g =>
          Except.ok (inits, if g ∈ gates then gates else g :: gates)

/-- resolve_wire_values: parse the input into initial values and gates,
seed the dictionary with the initial values, and run the fixpoint loop
until every gate is resolved.  The loop budget equals the gate count,
which is always sufficient (each iteration removes one gate); the
fallback arm of the match is provably dead. -/
def resolve_wire_values (input : String) : Except CircuitError WireMap :=
  match parseLines (pyLines input) with
  | Except.error e => Except.error e
  | Except.ok (inits, gates) =>
    match loopF gates.length (dictOf inits) gates with
    | some r => r
    | none => Except.error CircuitError.unsatisfiableCircuit

/-! ## Dictionary lemmas -/

/-- A key is absent exactly when lookup returns none. -/
theorem lookupWire_eq_none_iff (m : WireMap) (w : String) :
    lookupWire m w = none ↔ w ∉ m.map Prod.fst := by
  induction m with
  | nil => simp [lookupWire]
  | cons p t ih =>
    by_cases h : w = p.1 <;> simp [lookupWire, h, ih]

/-- Lookup after overwriting every entry whose key is k. -/
theorem lookupWire_mapOverwrite (m : WireMap) (k : String) (v : Nat) (w : String) :
    lookupWire (m.map (fun p => if p.1 = k then (k, v) else p)) w
      = if w = k then (lookupWire m k).map (fun _ => v) else lookupWire m w := by
  induction m with
  | nil => by_cases h : w = k <;> simp [lookupWire, h]
  | cons p t ih =>
    by_cases hp : p.1 = k
    · have hk : lookupWire (p :: t) k = some p.2 := by simp [lookupWire, hp.symm]
      by_cases hw : w = k
      · subst hw
        simp [lookupWire, hp, hk]
      · have hwp : ¬ w = p.1 := fun h => hw (h.trans hp)
        simp [lookupWire, hp, hw, hwp, ih]
    · by_cases hw : w = p.1
      · have hwk : ¬ w = k := fun h => hp (hw.symm.trans h)
        simp [lookupWire, hp, hw, hwk]
      · by_cases hwk : w = k
        · subst hwk
          simp [lookupWire, hp, hw, ih]
        · simp [lookupWire, hp, hw, hwk, ih]

/-- Lookup after appending a single fresh entry. -/
theorem lookupWire_append_single (m : WireMap) (k : String) (v : Nat) (w : String) :
    lookupWire (m ++ [(k, v)]) w
      = match lookupWire m w with
        | some x => some x
        | none => if w = k then some v else none := by
  induction m with
  | nil => by_cases h : w = k <;> simp [lookupWire, h]
  | cons p t ih =>
    by_cases hw : w = p.1 <;> simp [lookupWire, hw, ih]

/-- Lookup after a dict insertion. -/
theorem lookupWire_dictInsert (m : WireMap) (k : String) (v : Nat) (w : String) :
    lookupWire (dictInsert m k v) w = if w = k then some v else lookupWire m w := by
  unfold dictInsert
  cases hm : lookupWire m k with
  | none =>
    rw [lookupWire_append_single]
    cases hw : lookupWire m w with
    | none => rfl
    | some x =>
      have : ¬ w = k := fun h => by rw [h, hm] at hw; exact Option.noConfusion hw
      simp [this]
  | some v0 =>
    rw [lookupWire_mapOverwrite, hm]
    rfl

/-- Two wire maps are equivalent when every lookup agrees; this is
Python dict equality (order of entries is irrelevant). -/
def MapEquiv (m1 m2 : WireMap) : Prop :=
  ∀ w, lookupWire m1 w = lookupWire m2 w

theorem MapEquiv.refl (m : WireMap) : MapEquiv m m := fun _ => rfl

theorem mapEquiv_symm {m1 m2 : WireMap} (h : MapEquiv m1 m2) : MapEquiv m2 m1 :=
  fun w => (h w).symm

theorem mapEquiv_trans {m1 m2 m3 : WireMap} (h1 : MapEquiv m1 m2)
    (h2 : MapEquiv m2 m3) : MapEquiv m1 m3 :=
  fun w => (h1 w).trans (h2 w)

/-- Insertion respects map equivalence. -/
theorem dictInsert_congr {m1 m2 : WireMap} (h : MapEquiv m1 m2) (k : String) (v : Nat) :
    MapEquiv (dictInsert m1 k v) (dictInsert m2 k v) := by
  intro w
  rw [lookupWire_dictInsert, lookupWire_dictInsert, h w]

/-- Insertions at distinct keys commute up to map equivalence. -/
theorem dictInsert_comm (m : WireMap) {k1 k2 : String} (hne : k1 ≠ k2) (v1 v2 : Nat) :
    MapEquiv (dictInsert (dictInsert m k1 v1) k2 v2)
      (dictInsert (dictInsert m k2 v2) k1 v1) := by
  intro w
  simp only [lookupWire_dictInsert]
  by_cases h1 : w = k1
  · subst h1
    simp [hne]
  · by_cases h2 : w = k2
    · subst h2
      simp [h1]
    · simp [h1, h2]

/-- Eligibility respects map equivalence. -/
theorem eligible_congr {m1 m2 : WireMap} (h : MapEquiv m1 m2) (g : Gate) :
    eligible m1 g = eligible m2 g := by
  unfold eligible
  induction g.wire_inputs with
  | nil => rfl
  | cons a t ih => simp [List.all_cons, h a, ih]

/-- Gate evaluation respects map equivalence. -/
theorem evalGate_congr {m1 m2 : WireMap} (h : MapEquiv m1 m2) (g : Gate) :
    evalGate m1 g = evalGate m2 g := by
  unfold evalGate
  congr 1
  congr 1
  exact List.map_congr_left (fun w _ => by rw [h w])

/-- Eligibility is monotone under insertion. -/
theorem eligible_dictInsert {m : WireMap} {g : Gate} (h : eligible m g = true)
    (k : String) (v : Nat) : eligible (dictInsert m k v) g = true := by
  unfold eligible at h ⊢
  rw [List.all_eq_true] at h ⊢
  intro w hw
  rw [lookupWire_dictInsert]
  by_cases hwk : w = k
  · simp [hwk]
  · simpa [hwk] using h w hw

/-- Evaluating an eligible gate is unchanged by inserting a key that
was absent: every operand the gate reads was already present. -/
theorem evalGate_dictInsert {m : WireMap} {g : Gate} (helig : eligible m g = true)
    {k : String} (hk : lookupWire m k = none) (v : Nat) :
    evalGate (dictInsert m k v) g = evalGate m g := by
  unfold eligible at helig
  rw [List.all_eq_true] at helig
  unfold evalGate
  congr 2
  refine List.map_congr_left (fun w hw => ?_)
  rw [lookupWire_dictInsert]
  have hsome := helig w hw
  by_cases hwk : w = k
  · rw [hwk] at hsome; rw [hk] at hsome; simp at hsome
  · simp [hwk]

/-! ## Loop invariant and loop lemmas -/

/-- The invariant the fixpoint loop maintains on well-formed circuits:
the unresolved gates have pairwise distinct output wires, and none of
those output wires is a key of the value map yet. -/
structure LoopInv (m : WireMap) (L : List Gate) : Prop where
  outsNodup : (L.map Gate.output).Nodup
  outsFresh : ∀ g ∈ L, lookupWire m g.output = none

/-- Distinct gates of an output-distinct list have distinct outputs. -/
theorem nodup_map_ne {L : List Gate} (h : (L.map Gate.output).Nodup) {g g' : Gate}
    (hg : g ∈ L) (hg' : g' ∈ L) (hne : g ≠ g') : g.output ≠ g'.output :=
  fun he => hne (List.inj_on_of_nodup_map h hg hg' he)

/-- An output-distinct gate list has no duplicate gates. -/
theorem nodup_of_outs_nodup {L : List Gate} (h : (L.map Gate.output).Nodup) :
    L.Nodup :=
  h.of_map Gate.output

/-- The invariant is preserved by one loop iteration: record the
output of a member gate and remove that gate. -/
theorem LoopInv.step {m : WireMap} {L : List Gate} (inv : LoopInv m L) {g : Gate}
    (hg : g ∈ L) (v : Nat) :
    LoopInv (dictInsert m g.output v) (L.erase g) := by
  have hnd : L.Nodup := nodup_of_outs_nodup inv.outsNodup
  refine ⟨?_, ?_⟩
  · exact inv.outsNodup.sublist ((L.erase_sublist g).map Gate.output)
  · intro g' hg'
    have hmem := (hnd.mem_erase_iff.1 hg')
    have hne : g'.output ≠ g.output :=
      nodup_map_ne inv.outsNodup hmem.2 hg hmem.1
    rw [lookupWire_dictInsert, if_neg hne]
    exact inv.outsFresh g' hmem.2

/-- The invariant is transported along map equivalence. -/
theorem LoopInv.congr {m1 m2 : WireMap} {L : List Gate} (h : MapEquiv m1 m2)
    (inv : LoopInv m1 L) : LoopInv m2 L :=
  ⟨inv.outsNodup, fun g hg => (h g.output).symm.trans (inv.outsFresh g hg)⟩

/-- The invariant is transported along a permutation of the gates. -/
theorem LoopInv.perm {m : WireMap} {L1 L2 : List Gate} (h : L1.Perm L2)
    (inv : LoopInv m L1) : LoopInv m L2 :=
  ⟨((h.map Gate.output).nodup_iff).1 inv.outsNodup,
    fun g hg => inv.outsFresh g (h.mem_iff.2 hg)⟩

/-- Loop results compared up to Python dict equality: successful maps
are compared by lookup, everything else must agree exactly. -/
def ResultEquiv : Option (Except CircuitError WireMap) →
    Option (Except CircuitError WireMap) → Prop
  | some (Except.ok m1), some (Except.ok m2) => MapEquiv m1 m2
  | r1, r2 => r1 = r2

theorem ResultEquiv.rfl' : ∀ r, ResultEquiv r r
  | some (Except.ok _) => MapEquiv.refl _
  | some (Except.error _) => rfl
  | none => rfl

theorem ResultEquiv.of_eq {r1 r2} (h : r1 = r2) : ResultEquiv r1 r2 :=
  h ▸ ResultEquiv.rfl' r1

theorem resultEquiv_symm : ∀ {r1 r2}, ResultEquiv r1 r2 → ResultEquiv r2 r1
  | some (Except.ok _), some (Except.ok _), h => mapEquiv_symm h
  | some (Except.ok _), some (Except.error _), h => by cases h
  | some (Except.ok _), none, h => by cases h
  | some (Except.error _), _, h => by cases h; exact ResultEquiv.rfl' _
  | none, _, h => by cases h; exact ResultEquiv.rfl' _

theorem resultEquiv_trans : ∀ {r1 r2 r3}, ResultEquiv r1 r2 → ResultEquiv r2 r3 →
    ResultEquiv r1 r3
  | some (Except.ok _), some (Except.ok _), some (Except.ok _), h1, h2 =>
    mapEquiv_trans h1 h2
  | some (Except.ok _), some (Except.ok _), some (Except.error _), _, h2 => by cases h2
  | some (Except.ok _), some (Except.ok _), none, _, h2 => by cases h2
  | some (Except.ok _), some (Except.error _), _, h1, _ => by cases h1
  | some (Except.ok _), none, _, h1, _ => by cases h1
  | some (Except.error _), _, _, h1, h2 => by cases h1; exact h2
  | none, _, _, h1, h2 => by cases h1; exact h2

/-- Unfolding lemma: the loop on the empty gate list returns the map. -/
theorem loopF_nil (fuel : Nat) (m : WireMap) : loopF fuel m [] = some (Except.ok m) := by
  cases fuel <;> rfl

/-- Unfolding lemma: one iteration of the loop on a nonempty list. -/
theorem loopF_cons (fuel : Nat) (m : WireMap) (g0 : Gate) (gs : List Gate) :
    loopF (fuel + 1) m (g0 :: gs)
      = match (g0 :: gs).find? (fun g => eligible m g) with
        | none => some (Except.error CircuitError.unsatisfiableCircuit)
        | some g =>
          match evalGate m g with
          | none => some (Except.error CircuitError.arityError)
          | some v => loopF fuel (dictInsert m g.output v) ((g0 :: gs).erase g) := rfl

/-- The loop respects map equivalence: run from equivalent maps, it
returns the same control outcome and equivalent final maps. -/
theorem loopF_congr : ∀ (fuel : Nat) (L : List Gate) {m1 m2 : WireMap},
    MapEquiv m1 m2 → ResultEquiv (loopF fuel m1 L) (loopF fuel m2 L) := by
  intro fuel
  induction fuel with
  | zero =>
    intro L m1 m2 h
    cases L with
    | nil => exact h
    | cons g0 gs => exact rfl
  | succ fuel ih =>
    intro L m1 m2 h
    cases L with
    | nil => exact h
    | cons g0 gs =>
      rw [loopF_cons, loopF_cons]
      have hfind : (g0 :: gs).find? (fun g => eligible m1 g)
          = (g0 :: gs).find? (fun g => eligible m2 g) := by
        have : (fun g => eligible m1 g) = (fun g => eligible m2 g) :=
          funext (fun g => eligible_congr h g)
        rw [this]
      rw [← hfind]
      cases hf : (g0 :: gs).find? (fun g => eligible m1 g) with
      | none => exact rfl
      | some g =>
        dsimp only
        rw [evalGate_congr h g]
        cases he : evalGate m2 g with
        | none => exact rfl
        | some v =>
          dsimp only
          exact ih _ (dictInsert_congr h g.output v)

/-! ## Confluence of the fixpoint loop -/

/-- If some still-unresolved gate is eligible but fails arity (its
evaluation raises), the loop inevitably ends in the arity error: the
offending gate stays eligible and failing, and the loop only exits
once every gate, that one included, has been processed. -/
theorem loopF_stuck_arity (n : Nat) : ∀ (L : List Gate) (m : WireMap), L.length = n →
    LoopInv m L → ∀ g ∈ L, eligible m g = true → evalGate m g = none →
    loopF n m L = some (Except.error CircuitError.arityError) := by
  induction n with
  | zero =>
    intro L m hlen inv g hg helig hev
    rw [List.length_eq_zero] at hlen
    subst hlen
    cases hg
  | succ n ih =>
    intro L m hlen inv g hg helig hev
    cases L with
    | nil => cases hg
    | cons g0 gs =>
      rw [loopF_cons]
      cases hf : (g0 :: gs).find? (fun g => eligible m g) with
      | none =>
        rw [List.find?_eq_none] at hf
        exact absurd helig (by simpa using hf g hg)
      | some g1 =>
        have hp1 : eligible m g1 = true := by simpa using List.find?_some hf
        have hmem1 : g1 ∈ g0 :: gs := List.mem_of_find?_eq_some hf
        dsimp only
        cases he1 : evalGate m g1 with
        | none => rfl
        | some v1 =>
          dsimp only
          have hne : g ≠ g1 := fun h => by rw [h, he1] at hev; cases hev
          have hnd : (g0 :: gs).Nodup := nodup_of_outs_nodup inv.outsNodup
          have hfresh : lookupWire m g1.output = none := inv.outsFresh g1 hmem1
          refine ih _ _ ?_ (inv.step hmem1 v1) g ?_ ?_ ?_
          · rw [List.length_erase_of_mem hmem1]
            simpa using hlen
          · exact hnd.mem_erase_iff.2 ⟨hne, hg⟩
          · exact eligible_dictInsert helig g1.output v1
          · rw [evalGate_dictInsert helig hfresh v1]
            exact hev

/-- Exchange: when a member gate is eligible and evaluates, the loop
result is unchanged (up to dict equality) by processing that gate
first.  This is the key confluence step: the source picks an arbitrary
eligible gate from its set each iteration. -/
theorem loopF_exchange (n : Nat) : ∀ (L : List Gate) (m : WireMap), L.length = n →
    LoopInv m L → ∀ g ∈ L, eligible m g = true → ∀ v, evalGate m g = some v →
    ResultEquiv (loopF n m L)
      (loopF (L.erase g).length (dictInsert m g.output v) (L.erase g)) := by
  induction n with
  | zero =>
    intro L m hlen inv g hg helig v hev
    rw [List.length_eq_zero] at hlen
    subst hlen
    cases hg
  | succ n ih =>
    intro L m hlen inv g hg helig v hev
    cases L with
    | nil => cases hg
    | cons g0 gs =>
      have hnd : (g0 :: gs).Nodup := nodup_of_outs_nodup inv.outsNodup
      have hlen' : ((g0 :: gs).erase g).length = n := by
        rw [List.length_erase_of_mem hg]
        simpa using hlen
      rw [loopF_cons]
      cases hf : (g0 :: gs).find? (fun g => eligible m g) with
      | none =>
        rw [List.find?_eq_none] at hf
        exact absurd helig (by simpa using hf g hg)
      | some g1 =>
        have hp1 : eligible m g1 = true := by simpa using List.find?_some hf
        have hmem1 : g1 ∈ g0 :: gs := List.mem_of_find?_eq_some hf
        dsimp only
        by_cases hgg : g1 = g
        · subst hgg
          rw [hev]
          dsimp only
          exact ResultEquiv.of_eq (by rw [hlen'])
        · have hne : g ≠ g1 := fun h => hgg h.symm
          have hfresh1 : lookupWire m g1.output = none := inv.outsFresh g1 hmem1
          have hfreshg : lookupWire m g.output = none := inv.outsFresh g hg
          cases he1 : evalGate m g1 with
          | none =>
            dsimp only
            have hR : loopF ((g0 :: gs).erase g).length (dictInsert m g.output v)
                ((g0 :: gs).erase g) = some (Except.error CircuitError.arityError) := by
              refine loopF_stuck_arity _ _ _ rfl (inv.step hg v) g1 ?_ ?_ ?_
              · exact hnd.mem_erase_iff.2 ⟨hgg, hmem1⟩
              · exact eligible_dictInsert hp1 g.output v
              · rw [evalGate_dictInsert hp1 hfreshg v]
                exact he1
            rw [hR]
            exact ResultEquiv.rfl' _
          | some v1 =>
            dsimp only
            have houtne : g1.output ≠ g.output := nodup_map_ne inv.outsNodup hmem1 hg hgg
            have hmemE1 : g ∈ (g0 :: gs).erase g1 := hnd.mem_erase_iff.2 ⟨hne, hg⟩
            have hmemE2 : g1 ∈ (g0 :: gs).erase g := hnd.mem_erase_iff.2 ⟨hgg, hmem1⟩
            have hlen1 : ((g0 :: gs).erase g1).length = n := by
              rw [List.length_erase_of_mem hmem1]
              simpa using hlen
            have e1 : ResultEquiv (loopF n (dictInsert m g1.output v1) ((g0 :: gs).erase g1))
                (loopF (((g0 :: gs).erase g1).erase g).length
                  (dictInsert (dictInsert m g1.output v1) g.output v)
                  (((g0 :: gs).erase g1).erase g)) := by
              refine hlen1 ▸ ih _ _ hlen1 (inv.step hmem1 v1) g hmemE1 ?_ v ?_
              · exact eligible_dictInsert helig g1.output v1
              · rw [evalGate_dictInsert helig hfresh1 v1]
                exact hev
            have e2 : ResultEquiv
                (loopF ((g0 :: gs).erase g).length (dictInsert m g.output v)
                  ((g0 :: gs).erase g))
                (loopF ((((g0 :: gs).erase g).erase g1).length)
                  (dictInsert (dictInsert m g.output v) g1.output v1)
                  (((g0 :: gs).erase g).erase g1)) := by
              refine hlen' ▸ ih _ _ hlen' (inv.step hg v) g1 hmemE2 ?_ v1 ?_
              · exact eligible_dictInsert hp1 g.output v
              · rw [evalGate_dictInsert hp1 hfreshg v]
                exact he1
            have ecomm : (((g0 :: gs).erase g1).erase g) = (((g0 :: gs).erase g).erase g1) :=
              List.erase_comm g1 g (g0 :: gs) ▸ rfl
            have emap : MapEquiv (dictInsert (dictInsert m g1.output v1) g.output v)
                (dictInsert (dictInsert m g.output v) g1.output v1) :=
              dictInsert_comm m houtne v1 v
            have e3 : ResultEquiv
                (loopF (((g0 :: gs).erase g1).erase g).length
                  (dictInsert (dictInsert m g1.output v1) g.output v)
                  (((g0 :: gs).erase g1).erase g))
                (loopF ((((g0 :: gs).erase g).erase g1).length)
                  (dictInsert (dictInsert m g.output v) g1.output v1)
                  (((g0 :: gs).erase g).erase g1)) := by
              rw [ecomm]
              exact loopF_congr _ _ emap
            exact resultEquiv_trans (resultEquiv_trans e1 e3) (resultEquiv_symm e2)

/-- Main order-independence result: running the loop on permuted gate
lists (from the same well-formed state) yields the same outcome, with
successful final maps equal as dictionaries. -/
theorem loopF_perm (n : Nat) : ∀ (L1 L2 : List Gate) (m : WireMap), L1.length = n →
    LoopInv m L1 → L1.Perm L2 →
    ResultEquiv (loopF L1.length m L1) (loopF L2.length m L2) := by
  induction n with
  | zero =>
    intro L1 L2 m hlen inv hperm
    rw [List.length_eq_zero] at hlen
    subst hlen
    rw [hperm.symm.eq_nil]
    exact ResultEquiv.rfl' _
  | succ n ih =>
    intro L1 L2 m hlen inv hperm
    cases L1 with
    | nil => cases hlen
    | cons g0 gs =>
      cases hL2 : L2 with
      | nil =>
        rw [hL2] at hperm
        cases hperm.eq_nil
      | cons h0 hs =>
        rw [← hL2]
        cases hf : (g0 :: gs).find? (fun g => eligible m g) with
        | none =>
          have hf2 : L2.find? (fun g => eligible m g) = none := by
            rw [List.find?_eq_none] at hf ⊢
            intro a ha
            exact hf a (hperm.mem_iff.2 ha)
          rw [hL2] at hf2 ⊢
          simp only [List.length_cons]
          rw [loopF_cons, loopF_cons, hf, hf2]
          exact ResultEquiv.of_eq rfl
        | some g =>
          have hp : eligible m g = true := by simpa using List.find?_some hf
          have hmem : g ∈ g0 :: gs := List.mem_of_find?_eq_some hf
          have hmem2 : g ∈ L2 := hperm.mem_iff.1 hmem
          have inv2 : LoopInv m L2 := inv.perm hperm
          cases hev : evalGate m g with
          | none =>
            have e1 := loopF_stuck_arity (g0 :: gs).length _ m rfl inv g hmem hp hev
            have e2 := loopF_stuck_arity L2.length L2 m rfl inv2 g hmem2 hp hev
            exact ResultEquiv.of_eq (e1.trans e2.symm)
          | some v =>
            have e1 := loopF_exchange (g0 :: gs).length _ m rfl inv g hmem hp v hev
            have e2 := loopF_exchange L2.length L2 m rfl inv2 g hmem2 hp v hev
            have hlen1 : ((g0 :: gs).erase g).length = n := by
              rw [List.length_erase_of_mem hmem]
              simpa using hlen
            have e3 := ih ((g0 :: gs).erase g) (L2.erase g) (dictInsert m g.output v)
              hlen1 (inv.step hmem v) (hperm.erase g)
            exact resultEquiv_trans (resultEquiv_trans e1 e3) (resultEquiv_symm e2)

/-! ## Parse characterization -/

/-- The initial assignment a line contributes, when it parses to one. -/
def assignOf (l : String) : Option (String × Nat) :=
  match parse_line l with
  | some (Statement.assign w v) => some (w, v)
  | _ => none

/-- The gate a line contributes, when it parses to one. -/
def gateOf (l : String) : Option Gate :=
  match parse_line l with
  | some (Statement.gate g) => some g
  | _ => none

/-- The target wire of a parsed statement. -/
def targetOf : Statement → String
  | Statement.assign w _ => w
  | Statement.gate g => g.output

/-- The target wires of the statements of a line list, in order. -/
def targets (ls : List String) : List String :=
  ls.filterMap (fun l => (parse_line l).map targetOf)

/-- When every line parses, parseLines succeeds; the initial
assignments are the assignment lines in order and the gate set holds
exactly the gate lines, without duplicates. -/
theorem parseLines_ok_of_all : ∀ (ls : List String),
    (∀ l ∈ ls, (parse_line l).isSome) →
    ∃ gates, parseLines ls = Except.ok (ls.filterMap assignOf, gates) ∧
      gates.Nodup ∧ ∀ x, x ∈ gates ↔ x ∈ ls.filterMap gateOf := by
  intro ls
  induction ls with
  | nil => exact fun _ => ⟨[], rfl, List.nodup_nil, fun x => Iff.rfl⟩
  | cons l ls ih =>
    intro hall
    obtain ⟨s, hs⟩ := Option.isSome_iff_exists.1 (hall l (List.mem_cons_self l ls))
    obtain ⟨gates, hg, hnd, hmem⟩ := ih (fun a ha => hall a (List.mem_cons_of_mem l ha))
    cases s with
    | assign w v =>
      refine ⟨gates, ?_, hnd, fun x => ?_⟩
      · unfold parseLines
        rw [hs, hg]
        have ha : assignOf l = some (w, v) := by unfold assignOf; rw [hs]
        rw [List.filterMap_cons, ha]
      · have hb : gateOf l = none := by unfold gateOf; rw [hs]
        rw [List.filterMap_cons, hb]
        exact hmem x
    | gate g0 =>
      have ha : assignOf l = none := by unfold assignOf; rw [hs]
      have hb : gateOf l = some g0 := by unfold gateOf; rw [hs]
      by_cases hin : g0 ∈ gates
      · refine ⟨gates, ?_, hnd, fun x => ?_⟩
        · unfold parseLines
          rw [hs, hg]
          dsimp only
          rw [if_pos hin, List.filterMap_cons, ha]
        · rw [List.filterMap_cons, hb]
          constructor
          · intro hx
            exact List.mem_cons_of_mem g0 ((hmem x).1 hx)
          · intro hx
            rcases List.mem_cons.1 hx with rfl | hx
            · exact hin
            · exact (hmem x).2 hx
      · refine ⟨g0 :: gates, ?_, ?_, fun x => ?_⟩
        · unfold parseLines
          rw [hs, hg]
          dsimp only
          rw [if_neg hin, List.filterMap_cons, ha]
        · exact List.nodup_cons.2 ⟨hin, hnd⟩
        · rw [List.filterMap_cons, hb]
          constructor
          · intro hx
            rcases List.mem_cons.1 hx with rfl | hx
            · exact List.mem_cons_self x _
            · exact List.mem_cons_of_mem g0 ((hmem x).1 hx)
          · intro hx
            rcases List.mem_cons.1 hx with rfl | hx
            · exact List.mem_cons_self x _
            · exact List.mem_cons_of_mem g0 ((hmem x).2 hx)

/-- When parseLines succeeds, every line parses. -/
theorem parseLines_all_of_ok : ∀ (ls : List String) (p),
    parseLines ls = Except.ok p → ∀ l ∈ ls, (parse_line l).isSome := by
  intro ls
  induction ls with
  | nil => intro p _ l hl; cases hl
  | cons a ls ih =>
    intro p hok l hl
    unfold parseLines at hok
    cases hs : parse_line a with
    | none => rw [hs] at hok; cases hok
    | some s =>
      rw [hs] at hok
      cases hrec : parseLines ls with
      | error e => rw [hrec] at hok; cases hok
      | ok q =>
        rcases List.mem_cons.1 hl with rfl | hl
        · rw [hs]; rfl
        · exact ih q hrec l hl

/-- Every target wire of the parse result occurs in the target list. -/
theorem parse_targets_mem : ∀ (ls : List String) (inits : List (String × Nat))
    (gates : List Gate), parseLines ls = Except.ok (inits, gates) →
    ∀ w, (w ∈ inits.map Prod.fst ∨ w ∈ gates.map Gate.output) → w ∈ targets ls := by
  intro ls
  induction ls with
  | nil =>
    intro inits gates hok w hw
    cases hok
    rcases hw with h | h <;> cases h
  | cons l ls ih =>
    intro inits gates hok w hw
    unfold parseLines at hok
    cases hs : parse_line l with
    | none => rw [hs] at hok; cases hok
    | some s =>
      rw [hs] at hok
      cases hrec : parseLines ls with
      | error e =>
        rw [hrec] at hok
        dsimp only at hok
        cases hok
      | ok q =>
        obtain ⟨i1, g1⟩ := q
        rw [hrec] at hok
        dsimp only at hok
        have htgt : targets (l :: ls) = targetOf s :: targets ls := by
          unfold targets
          rw [List.filterMap_cons]
          rw [hs]
          rfl
        cases s with
        | assign wv v =>
          rw [Except.ok.injEq, Prod.mk.injEq] at hok
          obtain ⟨hoki, hokg⟩ := hok
          subst hoki
          subst hokg
          rw [htgt]
          rcases hw with h | h
          · rw [List.map_cons] at h
            rcases List.mem_cons.1 h with h' | h'
            · exact h' ▸ List.mem_cons_self _ _
            · exact List.mem_cons_of_mem _ (ih i1 g1 hrec w (Or.inl h'))
          · exact List.mem_cons_of_mem _ (ih i1 g1 hrec w (Or.inr h))
        | gate g0 =>
          rw [Except.ok.injEq, Prod.mk.injEq] at hok
          obtain ⟨hoki, hokg⟩ := hok
          subst hoki
          subst hokg
          rw [htgt]
          rcases hw with h | h
          · exact List.mem_cons_of_mem _ (ih i1 g1 hrec w (Or.inl h))
          · by_cases hin : g0 ∈ g1
            · rw [if_pos hin] at h
              exact List.mem_cons_of_mem _ (ih i1 g1 hrec w (Or.inr h))
            · rw [if_neg hin, List.map_cons] at h
              rcases List.mem_cons.1 h with h' | h'
              · exact h' ▸ List.mem_cons_self _ _
              · exact List.mem_cons_of_mem _ (ih i1 g1 hrec w (Or.inr h'))

/-- When the statement targets are pairwise distinct, the assignment
keys together with the gate outputs are pairwise distinct. -/
theorem parse_targets_nodup : ∀ (ls : List String) (inits : List (String × Nat))
    (gates : List Gate), parseLines ls = Except.ok (inits, gates) →
    (targets ls).Nodup → (inits.map Prod.fst ++ gates.map Gate.output).Nodup := by
  intro ls
  induction ls with
  | nil =>
    intro inits gates hok _
    cases hok
    exact List.nodup_nil
  | cons l ls ih =>
    intro inits gates hok hnd
    unfold parseLines at hok
    cases hs : parse_line l with
    | none => rw [hs] at hok; cases hok
    | some s =>
      rw [hs] at hok
      cases hrec : parseLines ls with
      | error e =>
        rw [hrec] at hok
        dsimp only at hok
        cases hok
      | ok q =>
        obtain ⟨i1, g1⟩ := q
        rw [hrec] at hok
        dsimp only at hok
        have htgt : targets (l :: ls) = targetOf s :: targets ls := by
          unfold targets
          rw [List.filterMap_cons, hs]
          rfl
        rw [htgt, List.nodup_cons] at hnd
        have hihnd := ih i1 g1 hrec hnd.2
        cases s with
        | assign wv v =>
          rw [Except.ok.injEq, Prod.mk.injEq] at hok
          obtain ⟨hoki, hokg⟩ := hok
          subst hoki
          subst hokg
          simp only [List.map_cons, List.cons_append, List.nodup_cons]
          refine ⟨fun hc => hnd.1 ?_, hihnd⟩
          rcases List.mem_append.1 hc with h | h
          · exact parse_targets_mem ls i1 g1 hrec _ (Or.inl h)
          · exact parse_targets_mem ls i1 g1 hrec _ (Or.inr h)
        | gate g0 =>
          rw [Except.ok.injEq, Prod.mk.injEq] at hok
          obtain ⟨hoki, hokg⟩ := hok
          subst hoki
          subst hokg
          by_cases hin : g0 ∈ g1
          · exact absurd
              (parse_targets_mem ls i1 g1 hrec _
                (Or.inr (List.mem_map_of_mem Gate.output hin))) hnd.1
          · rw [if_neg hin]
            rw [List.nodup_append] at hihnd ⊢
            obtain ⟨h1, h2, h3⟩ := hihnd
            refine ⟨h1, ?_, ?_⟩
            · rw [List.map_cons, List.nodup_cons]
              refine ⟨fun hc => hnd.1 ?_, h2⟩
              exact parse_targets_mem ls i1 g1 hrec _ (Or.inr hc)
            · intro a ha
              rw [List.map_cons]
              intro hb
              rcases List.mem_cons.1 hb with rfl | hb
              · exact hnd.1 (parse_targets_mem ls i1 g1 hrec _ (Or.inl ha))
              · exact h3 ha hb

/-- Building a dictionary from distinct keys is the identity. -/
theorem dictOf_eq_self_aux : ∀ (l : List (String × Nat)) (acc : WireMap),
    ((acc ++ l).map Prod.fst).Nodup →
    List.foldl (fun m p => dictInsert m p.1 p.2) acc l = acc ++ l := by
  intro l
  induction l with
  | nil => intro acc _; simp
  | cons p t ih =>
    intro acc hnd
    have hnotin : p.1 ∉ acc.map Prod.fst := by
      rw [List.map_append, List.nodup_append] at hnd
      intro hc
      exact hnd.2.2 hc (by simp)
    have hlk : lookupWire acc p.1 = none := (lookupWire_eq_none_iff acc p.1).2 hnotin
    have hins : dictInsert acc p.1 p.2 = acc ++ [p] := by
      unfold dictInsert
      rw [hlk]
    rw [List.foldl_cons, hins, ih (acc ++ [p]) (by simpa using hnd)]
    simp

/-- dict(initial_values) is the assignment list itself when no wire is
assigned twice. -/
theorem dictOf_eq_self (l : List (String × Nat)) (h : (l.map Prod.fst).Nodup) :
    dictOf l = l :=
  dictOf_eq_self_aux l [] (by simpa using h)

/-- Lookup in an association list with distinct keys is invariant
under permutation of its entries. -/
theorem lookupWire_perm {l1 l2 : WireMap} (hperm : l1.Perm l2)
    (hnd : (l1.map Prod.fst).Nodup) : ∀ w, lookupWire l1 w = lookupWire l2 w := by
  induction hperm with
  | nil => exact fun w => rfl
  | cons p h ih =>
    intro w
    rw [List.map_cons, List.nodup_cons] at hnd
    by_cases hw : w = p.1
    · simp [lookupWire, hw]
    · simp only [lookupWire, hw, if_false]
      exact ih hnd.2 w
  | swap p q l =>
    intro w
    rw [List.map_cons, List.map_cons, List.nodup_cons, List.nodup_cons] at hnd
    have hpq : q.1 ≠ p.1 := by
      intro h
      exact hnd.1 (h ▸ List.mem_cons_self _ _)
    by_cases hw1 : w = q.1
    · subst hw1
      simp [lookupWire, hpq]
    · by_cases hw2 : w = p.1
      · subst hw2
        have hqp : ¬ p.1 = q.1 := fun h => hpq h.symm
        simp [lookupWire, hqp]
      · simp [lookupWire, hw1, hw2]
  | trans h1 h2 ih1 ih2 =>
    intro w
    have hnd2 := (h1.map Prod.fst).nodup_iff.1 hnd
    exact (ih1 hnd w).trans (ih2 hnd2 w)

/-- If any line is unparseable, parseLines fails with a ParseError that
carries an unparseable line of the input. -/
theorem parseLines_error_of_bad : ∀ (ls : List String) (l : String), l ∈ ls →
    parse_line l = none →
    ∃ l0, l0 ∈ ls ∧ parse_line l0 = none ∧
      parseLines ls = Except.error (CircuitError.parseError l0) := by
  intro ls
  induction ls with
  | nil => intro l hl; cases hl
  | cons a ls ih =>
    intro l hl hbad
    cases hs : parse_line a with
    | none =>
      refine ⟨a, List.mem_cons_self a ls, hs, ?_⟩
      unfold parseLines
      rw [hs]
    | some s =>
      have hl' : l ∈ ls := by
        rcases List.mem_cons.1 hl with rfl | h
        · rw [hs] at hbad; cases hbad
        · exact h
      obtain ⟨l0, hmem, hbad0, herr⟩ := ih l hl' hbad
      refine ⟨l0, List.mem_cons_of_mem a hmem, hbad0, ?_⟩
      unfold parseLines
      rw [hs, herr]

/-! ## Boundedness of wire values -/

/-- Every value stored in the map is within the 16-bit range. -/
def boundedVals (m : WireMap) : Prop := ∀ p ∈ m, p.2 ≤ MAX_VALUE

/-- Every literal operand of the gate is within the 16-bit range. -/
def gateStaticsBounded (g : Gate) : Prop := ∀ v ∈ g.static_inputs, v ≤ MAX_VALUE

/-- Every literal of a parsed statement is within the 16-bit range. -/
def stmtBounded : Statement → Prop
  | Statement.assign _ v => v ≤ MAX_VALUE
  | Statement.gate g => gateStaticsBounded g

/-- Gate evaluation on 16-bit-bounded argument values yields a
16-bit-bounded result, for every gate kind. -/
theorem resolve_output_value_le (k : GateKind) (vs : List Nat) (v : Nat)
    (hb : ∀ x ∈ vs, x ≤ MAX_VALUE) (he : resolve_output_value k vs = some v) :
    v ≤ MAX_VALUE := by
  unfold resolve_output_value at he
  split at he
  · cases he
    exact hb _ (by simp)
  · cases he
    rename_i a b
    have ha := hb a (by simp)
    exact le_trans Nat.and_le_left ha
  · cases he
    rename_i a b
    have ha : a < 2 ^ 16 := by
      have := hb a (by simp)
      unfold MAX_VALUE at this
      omega
    have hbb : b < 2 ^ 16 := by
      have := hb b (by simp)
      unfold MAX_VALUE at this
      omega
    have := Nat.or_lt_two_pow ha hbb
    unfold MAX_VALUE
    omega
  · cases he
    exact Nat.and_le_right
  · cases he
    rename_i kk a
    rw [Nat.shiftRight_eq_div_pow]
    exact le_trans (Nat.div_le_self _ _) (hb a (by simp))
  · cases he
    exact Nat.sub_le _ _
  · cases he

/-- Insertion of a bounded value preserves boundedness. -/
theorem boundedVals_dictInsert {m : WireMap} (hm : boundedVals m) {k : String}
    {v : Nat} (hv : v ≤ MAX_VALUE) : boundedVals (dictInsert m k v) := by
  intro p hp
  unfold dictInsert at hp
  cases hlk : lookupWire m k with
  | some x =>
    rw [hlk] at hp
    obtain ⟨q, hq, hqe⟩ := List.mem_map.1 hp
    by_cases hqk : q.1 = k
    · rw [if_pos hqk] at hqe
      rw [← hqe]
      exact hv
    · rw [if_neg hqk] at hqe
      rw [← hqe]
      exact hm q hq
  | none =>
    rw [hlk] at hp
    rcases List.mem_append.1 hp with h | h
    · exact hm p h
    · rw [List.mem_singleton.1 h]
      exact hv

/-- A successful lookup returns an entry of the map. -/
theorem lookupWire_mem : ∀ (m : WireMap) (w : String) (x : Nat),
    lookupWire m w = some x → (w, x) ∈ m := by
  intro m
  induction m with
  | nil => intro w x h; cases h
  | cons p t ih =>
    intro w x h
    unfold lookupWire at h
    by_cases hw : w = p.1
    · rw [if_pos hw] at h
      cases h
      rw [hw]
      exact List.mem_cons_self _ _
    · rw [if_neg hw] at h
      exact List.mem_cons_of_mem p (ih w x h)

/-- Evaluating a gate with bounded literals over a bounded map yields a
bounded value. -/
theorem evalGate_le {m : WireMap} {g : Gate} (hm : boundedVals m)
    (hg : gateStaticsBounded g) {v : Nat} (he : evalGate m g = some v) :
    v ≤ MAX_VALUE := by
  refine resolve_output_value_le g.kind _ v ?_ he
  intro x hx
  rcases List.mem_append.1 hx with h | h
  · obtain ⟨w, _, hwe⟩ := List.mem_map.1 h
    cases hlk : lookupWire m w with
    | none => rw [hlk] at hwe; simp at hwe; omega
    | some y =>
      rw [hlk] at hwe
      simp at hwe
      rw [← hwe]
      exact hm (w, y) (lookupWire_mem m w y hlk)
  · exact hg x h

/-- The fixpoint loop preserves boundedness: a successful run from a
bounded map over gates with bounded literals returns a bounded map. -/
theorem loopF_bounded : ∀ (fuel : Nat) (m : WireMap) (L : List Gate) (r : WireMap),
    boundedVals m → (∀ g ∈ L, gateStaticsBounded g) →
    loopF fuel m L = some (Except.ok r) → boundedVals r := by
  intro fuel
  induction fuel with
  | zero =>
    intro m L r hm hL he
    cases L with
    | nil => cases he; exact hm
    | cons g0 gs => cases he
  | succ fuel ih =>
    intro m L r hm hL he
    cases L with
    | nil => cases he; exact hm
    | cons g0 gs =>
      rw [loopF_cons] at he
      cases hf : (g0 :: gs).find? (fun g => eligible m g) with
      | none => rw [hf] at he; cases he
      | some g =>
        rw [hf] at he
        dsimp only at he
        cases hev : evalGate m g with
        | none => rw [hev] at he; cases he
        | some v =>
          rw [hev] at he
          dsimp only at he
          have hmem : g ∈ g0 :: gs := List.mem_of_find?_eq_some hf
          refine ih _ _ _ ?_ ?_ he
          · exact boundedVals_dictInsert hm (evalGate_le hm (hL g hmem) hev)
          · exact fun g' hg' => hL g' (List.mem_of_mem_erase hg')

/-- Parsed statements with bounded literals yield bounded initial
assignments and gates with bounded literal operands. -/
theorem parseLines_bounded : ∀ (ls : List String) (inits : List (String × Nat))
    (gates : List Gate), parseLines ls = Except.ok (inits, gates) →
    (∀ l ∈ ls, ∀ s, parse_line l = some s → stmtBounded s) →
    (∀ p ∈ inits, p.2 ≤ MAX_VALUE) ∧ (∀ g ∈ gates, gateStaticsBounded g) := by
  intro ls
  induction ls with
  | nil =>
    intro inits gates hok _
    cases hok
    exact ⟨fun p hp => absurd hp (List.not_mem_nil p), fun g hg => absurd hg (List.not_mem_nil g)⟩
  | cons l ls ih =>
    intro inits gates hok hb
    unfold parseLines at hok
    cases hs : parse_line l with
    | none => rw [hs] at hok; cases hok
    | some s =>
      rw [hs] at hok
      cases hrec : parseLines ls with
      | error e =>
        rw [hrec] at hok
        dsimp only at hok
        cases hok
      | ok q =>
        obtain ⟨i1, g1⟩ := q
        rw [hrec] at hok
        dsimp only at hok
        have hbs : stmtBounded s := hb l (List.mem_cons_self l ls) s hs
        have hihb := ih i1 g1 hrec (fun a ha s' hs' => hb a (List.mem_cons_of_mem l ha) s' hs')
        cases s with
        | assign wv v =>
          rw [Except.ok.injEq, Prod.mk.injEq] at hok
          obtain ⟨hoki, hokg⟩ := hok
          subst hoki
          subst hokg
          refine ⟨fun p hp => ?_, hihb.2⟩
          rcases List.mem_cons.1 hp with rfl | hp
          · exact hbs
          · exact hihb.1 p hp
        | gate g0 =>
          rw [Except.ok.injEq, Prod.mk.injEq] at hok
          obtain ⟨hoki, hokg⟩ := hok
          subst hoki
          subst hokg
          refine ⟨hihb.1, fun g hg => ?_⟩
          by_cases hin : g0 ∈ g1
          · rw [if_pos hin] at hg
            exact hihb.2 g hg
          · rw [if_neg hin] at hg
            rcases List.mem_cons.1 hg with rfl | hg
            · exact hbs
            · exact hihb.2 g hg

/-- Building the initial dictionary from bounded assignments yields a
bounded map. -/
theorem dictOf_bounded : ∀ (l : List (String × Nat)) (acc : WireMap),
    boundedVals acc → (∀ p ∈ l, p.2 ≤ MAX_VALUE) →
    boundedVals (List.foldl (fun m p => dictInsert m p.1 p.2) acc l) := by
  intro l
  induction l with
  | nil => intro acc hacc _; exact hacc
  | cons p t ih =>
    intro acc hacc hl
    rw [List.foldl_cons]
    refine ih _ ?_ (fun q hq => hl q (List.mem_cons_of_mem p hq))
    exact boundedVals_dictInsert hacc (hl p (List.mem_cons_self p t))

/-! ## Termination of the fixpoint loop -/

/-- A budget of one iteration per unresolved gate always suffices: the
loop exits (successfully or with an error) before exhausting it. -/
theorem loopF_isSome_of_length : ∀ (n : Nat) (m : WireMap) (L : List Gate),
    L.length = n → (loopF n m L).isSome = true := by
  intro n
  induction n with
  | zero =>
    intro m L hlen
    rw [List.length_eq_zero] at hlen
    subst hlen
    rfl
  | succ n ih =>
    intro m L hlen
    cases L with
    | nil => rw [loopF_nil]; rfl
    | cons g0 gs =>
      rw [loopF_cons]
      cases hf : (g0 :: gs).find? (fun g => eligible m g) with
      | none => rfl
      | some g =>
        dsimp only
        cases hev : evalGate m g with
        | none => rfl
        | some v =>
          dsimp only
          refine ih _ _ ?_
          rw [List.length_erase_of_mem (List.mem_of_find?_eq_some hf)]
          simpa using hlen

/-- Extra budget does not change the loop result: once the budget
reaches the gate count, the result is already determined. -/
theorem loopF_stable : ∀ (fuel : Nat) (m : WireMap) (L : List Gate),
    L.length ≤ fuel → loopF fuel m L = loopF L.length m L := by
  intro fuel
  induction fuel with
  | zero =>
    intro m L hlen
    rw [Nat.le_zero] at hlen
    rw [hlen]
  | succ fuel ih =>
    intro m L hlen
    cases L with
    | nil => rw [loopF_nil, loopF_nil]
    | cons g0 gs =>
      simp only [List.length_cons]
      rw [loopF_cons, loopF_cons]
      cases hf : (g0 :: gs).find? (fun g => eligible m g) with
      | none => rfl
      | some g =>
        dsimp only
        cases hev : evalGate m g with
        | none => rfl
        | some v =>
          dsimp only
          have hmem : g ∈ g0 :: gs := List.mem_of_find?_eq_some hf
          have hlene : ((g0 :: gs).erase g).length = gs.length := by
            rw [List.length_erase_of_mem hmem]
            simp
          have h1 : ((g0 :: gs).erase g).length ≤ fuel := by
            rw [hlene]
            exact Nat.le_of_succ_le_succ (by simpa using hlen)
          rw [ih _ _ h1, hlene]

/-! ## Decidability instances for concrete checking -/

instance (g : Gate) : Decidable (gateStaticsBounded g) :=
  List.decidableBAll _ g.static_inputs

instance (s : Statement) : Decidable (stmtBounded s) := by
  cases s with
  | assign w v => exact inferInstanceAs (Decidable (v ≤ MAX_VALUE))
  | gate g => exact inferInstanceAs (Decidable (gateStaticsBounded g))

instance (l : String) : Decidable (∀ s, parse_line l = some s → stmtBounded s) := by
  cases hp : parse_line l with
  | none =>
    exact isTrue (fun s hs => Option.noConfusion hs)
  | some s0 =>
    refine decidable_of_iff (stmtBounded s0) ⟨fun h s hs => ?_, fun h => h s0 rfl⟩
    cases hs
    exact h

/-- Extract the success side of a result equivalence. -/
theorem ResultEquiv.ok_left {m1 : WireMap} {r2 : Option (Except CircuitError WireMap)}
    (h : ResultEquiv (some (Except.ok m1)) r2) :
    ∃ m2, r2 = some (Except.ok m2) ∧ MapEquiv m1 m2 := by
  match r2, h with
  | some (Except.ok m2), h => exact ⟨m2, rfl, h⟩
  | some (Except.error e), h => cases h
  | none, h => cases h

/-! ## Claim theorems -/

/-- Claim C1: for the canonical eight-line fixture circuit, resolution
succeeds and the returned map is exactly x=123, y=456, d=72, e=507,
f=492, g=114, h=65412, i=65079. -/
theorem c1_fixture_resolves :
    resolve_wire_values ("        123 -> x\n        456 -> y\n        x AND y -> d\n        x OR y -> e\n        x LSHIFT 2 -> f\n        y RSHIFT 2 -> g\n        NOT x -> h\n        NOT y -> i\n    ")
      = Except.ok [("x", 123), ("y", 456), ("d", 72), ("e", 507), ("f", 492),
          ("g", 114), ("h", 65412), ("i", 65079)] := rfl

/-- Claim C2: when the parsed gate set is nonempty but no gate in it
has all of its wire operands present as keys of the initial value map,
resolution signals the fatal UnsatisfiableCircuit error (and thus never
returns a map with default or zero values for the affected wires). -/
theorem c2_stuck_unsatisfiable (input : String) (inits : List (String × Nat))
    (gates : List Gate)
    (hparse : parseLines (pyLines input) = Except.ok (inits, gates))
    (hne : gates ≠ [])
    (hstuck : ∀ g ∈ gates, ¬ eligible (dictOf inits) g = true) :
    resolve_wire_values input = Except.error CircuitError.unsatisfiableCircuit := by
  unfold resolve_wire_values
  rw [hparse]
  dsimp only
  cases gates with
  | nil => exact absurd rfl hne
  | cons g0 gs =>
    simp only [List.length_cons]
    rw [loopF_cons]
    have hf : (g0 :: gs).find? (fun g => eligible (dictOf inits) g) = none :=
      List.find?_eq_none.2 (fun g hg => by simpa using hstuck g hg)
    rw [hf]

/-- Witness for C2: a direct self-reference circuit surfaces the
UnsatisfiableCircuit error. -/
theorem c2_witness :
    resolve_wire_values ("1 -> y\nx AND y -> x")
      = Except.error CircuitError.unsatisfiableCircuit :=
  c2_stuck_unsatisfiable ("1 -> y\nx AND y -> x") [("y", 1)]
    [{ kind := GateKind.band, wire_inputs := ["x", "y"], static_inputs := [], output := "x" }]
    rfl (by decide) (by decide)

/-- Claim C3 counterexample: two permuted inputs that both resolve but
to different maps (the same wire is assigned twice, and the Python dict
keeps the later assignment). -/
theorem c3_counterexample :
    (pyLines ("1 -> x\n2 -> x")).Perm (pyLines ("2 -> x\n1 -> x")) ∧
    resolve_wire_values ("1 -> x\n2 -> x") = Except.ok [("x", 2)] ∧
    resolve_wire_values ("2 -> x\n1 -> x") = Except.ok [("x", 1)] ∧
    ¬ lookupWire [("x", 2)] ("x") = lookupWire [("x", 1)] ("x") :=
  ⟨by decide, rfl, rfl, by decide⟩

/-- Claim C3 (amended): for every input on which resolution succeeds
and in which each wire is the target of at most one statement line,
resolving any permutation of its lines also succeeds and produces a
wire-to-value map with identical lookups. -/
theorem c3_resolution_order_independent (t1 t2 : String) (m1 : WireMap)
    (hperm : (pyLines t1).Perm (pyLines t2))
    (hnd : (targets (pyLines t1)).Nodup)
    (hres : resolve_wire_values t1 = Except.ok m1) :
    ∃ m2, resolve_wire_values t2 = Except.ok m2 ∧
      ∀ w, lookupWire m2 w = lookupWire m1 w := by
  unfold resolve_wire_values at hres
  cases hp1 : parseLines (pyLines t1) with
  | error e => rw [hp1] at hres; cases hres
  | ok q =>
    obtain ⟨i1, g1s⟩ := q
    rw [hp1] at hres
    dsimp only at hres
    have hall1 := parseLines_all_of_ok _ _ hp1
    have hall2 : ∀ l ∈ pyLines t2, (parse_line l).isSome := fun l hl =>
      hall1 l (hperm.mem_iff.2 hl)
    obtain ⟨gA, hpA, hndA, hmemA⟩ := parseLines_ok_of_all _ hall1
    obtain ⟨gB, hpB, hndB, hmemB⟩ := parseLines_ok_of_all _ hall2
    have hid := hp1.symm.trans hpA
    rw [Except.ok.injEq, Prod.mk.injEq] at hid
    obtain ⟨hi, hga⟩ := hid
    subst hga
    have hkey := parse_targets_nodup _ _ _ hp1 hnd
    rw [List.nodup_append] at hkey
    obtain ⟨hk1, hk2, hk3⟩ := hkey
    have hd1 : dictOf i1 = i1 := dictOf_eq_self i1 hk1
    have hip : i1.Perm ((pyLines t2).filterMap assignOf) := by
      rw [hi]
      exact hperm.filterMap assignOf
    have hk1B : (((pyLines t2).filterMap assignOf).map Prod.fst).Nodup :=
      ((hip.map Prod.fst).nodup_iff).1 hk1
    have hd2 : dictOf ((pyLines t2).filterMap assignOf) = (pyLines t2).filterMap assignOf :=
      dictOf_eq_self _ hk1B
    have hmapEq : MapEquiv (dictOf i1) (dictOf ((pyLines t2).filterMap assignOf)) := by
      rw [hd1, hd2]
      exact lookupWire_perm hip hk1
    have hgp : g1s.Perm gB := by
      refine (List.perm_ext_iff_of_nodup hndA hndB).2 (fun x => ?_)
      rw [hmemA x, hmemB x]
      exact (hperm.filterMap gateOf).mem_iff
    have inv : LoopInv (dictOf i1) g1s := by
      refine ⟨hk2, fun g hg => ?_⟩
      rw [hd1, lookupWire_eq_none_iff]
      intro hc
      exact hk3 hc (List.mem_map_of_mem Gate.output hg)
    cases hl1 : loopF g1s.length (dictOf i1) g1s with
    | none => rw [hl1] at hres; cases hres
    | some r =>
      rw [hl1] at hres
      dsimp only at hres
      subst hres
      have e1 : ResultEquiv (loopF g1s.length (dictOf i1) g1s)
          (loopF gB.length (dictOf i1) gB) :=
        loopF_perm g1s.length g1s gB (dictOf i1) rfl inv hgp
      have e2 : ResultEquiv (loopF gB.length (dictOf i1) gB)
          (loopF gB.length (dictOf ((pyLines t2).filterMap assignOf)) gB) :=
        loopF_congr _ _ hmapEq
      have e := resultEquiv_trans e1 e2
      rw [hl1] at e
      obtain ⟨m2, hm2, hme⟩ := e.ok_left
      refine ⟨m2, ?_, fun w => (hme w).symm⟩
      unfold resolve_wire_values
      rw [hpB]
      dsimp only
      rw [hm2]

/-- Witness for C3 (amended): swapping the two lines of a small
circuit gives a map with identical lookups. -/
theorem c3_witness :
    ∃ m2, resolve_wire_values ("NOT x -> h\n123 -> x") = Except.ok m2 ∧
      ∀ w, lookupWire m2 w = lookupWire [("x", 123), ("h", 65412)] w :=
  c3_resolution_order_independent ("123 -> x\nNOT x -> h") ("NOT x -> h\n123 -> x")
    [("x", 123), ("h", 65412)] (by decide) (by decide) rfl

/-- Claim C4 counterexample: a literal assignment beyond 65535 is
accepted and lands unmasked in the returned map. -/
theorem c4_counterexample :
    resolve_wire_values ("70000 -> x") = Except.ok [("x", 70000)] ∧
    ¬ (70000 ≤ MAX_VALUE) :=
  ⟨rfl, by decide⟩

/-- Claim C4 (amended): when every literal of the input statements is
within the 16-bit range, every value of the returned map is within the
16-bit range. -/
theorem c4_values_bounded (input : String) (m : WireMap)
    (hb : ∀ l ∈ pyLines input, ∀ s, parse_line l = some s → stmtBounded s)
    (hres : resolve_wire_values input = Except.ok m) :
    ∀ p ∈ m, p.2 ≤ MAX_VALUE := by
  unfold resolve_wire_values at hres
  cases hp : parseLines (pyLines input) with
  | error e => rw [hp] at hres; cases hres
  | ok q =>
    obtain ⟨inits, gates⟩ := q
    rw [hp] at hres
    dsimp only at hres
    obtain ⟨hbi, hbg⟩ := parseLines_bounded _ _ _ hp hb
    have hbd : boundedVals (dictOf inits) :=
      dictOf_bounded inits [] (fun p hp => absurd hp (List.not_mem_nil p)) hbi
    cases hl : loopF gates.length (dictOf inits) gates with
    | none => rw [hl] at hres; cases hres
    | some r =>
      rw [hl] at hres
      dsimp only at hres
      subst hres
      exact loopF_bounded gates.length (dictOf inits) gates m hbd hbg hl

/-- Witness for C4 (amended): a bounded assignment yields a bounded
map; the entry of the resolved map for the one statement is bounded. -/
theorem c4_witness : (("x", 70) : String × Nat).2 ≤ MAX_VALUE :=
  c4_values_bounded ("70 -> x") [("x", 70)] (by decide) rfl ("x", 70) (by decide)

/-- Claim C5 counterexample: with both AND operands structurally
identical, the operand set collapses to one entry and resolution fails
with the arity error of tuple unpacking, instead of evaluating the
gate successfully. -/
theorem c5_counterexample :
    parse_line ("x AND x -> w")
      = some (Statement.gate (Gate.mk GateKind.band ["x"] [] ("w"))) ∧
    resolve_wire_values ("123 -> x\nx AND x -> w")
      = Except.error CircuitError.arityError :=
  ⟨rfl, rfl⟩

/-- Claim C5 (amended): for every AND or OR gate whose two operands
are structurally identical, the two operands collapse to one entry of
the gate operand set (universally: classifying any duplicated operand
token yields a single wire entry or a single literal entry); such a
gate is eligible as soon as its operand is available, but evaluating
it fails (the two-value tuple unpacking receives one value), so
resolution raises the arity error instead of assigning the operand
value to the output wire; end to end, a duplicated-operand OR circuit
resolves to the arity error. -/
theorem c5_collapse_arity :
    (∀ t : String, isValueTok t = true →
      classify_inputs [t, t] = ([], [digitsToNat t])) ∧
    (∀ t : String, isValueTok t = false →
      classify_inputs [t, t] = ([t], [])) ∧
    (∀ (m : WireMap) (g : Gate) (x : String),
      g.kind = GateKind.band ∨ g.kind = GateKind.bor →
      g.wire_inputs = [x] → g.static_inputs = [] →
      (lookupWire m x).isSome = true →
      eligible m g = true ∧ evalGate m g = none) ∧
    (∀ (m : WireMap) (g : Gate) (v : Nat),
      g.kind = GateKind.band ∨ g.kind = GateKind.bor →
      g.wire_inputs = [] → g.static_inputs = [v] →
      eligible m g = true ∧ evalGate m g = none) ∧
    resolve_wire_values ("123 -> x\nx OR x -> w")
      = Except.error CircuitError.arityError := by
  refine ⟨?_, ?_, ?_, ?_, rfl⟩
  · intro t h
    simp [classify_inputs, h, insertSortedBy]
  · intro t h
    simp [classify_inputs, h, insertSortedBy]
  · intro m g x hkind hwi hsi hx
    constructor
    · unfold eligible
      rw [hwi]
      simpa using hx
    · unfold evalGate
      rw [hwi, hsi]
      rcases hkind with h | h <;> rw [h] <;> rfl
  · intro m g v hkind hwi hsi
    constructor
    · unfold eligible
      rw [hwi]
      rfl
    · unfold evalGate
      rw [hwi, hsi]
      rcases hkind with h | h <;> rw [h] <;> rfl

/-- Witness for C5 (amended): a duplicated wire operand collapses to a
one-entry set, and the collapsed OR gate is eligible but fails
evaluation on a concrete map. -/
theorem c5_witness :
    classify_inputs ["x", "x"] = (["x"], []) ∧
    eligible [("x", 5)] (Gate.mk GateKind.bor ["x"] [] ("w")) = true ∧
    evalGate [("x", 5)] (Gate.mk GateKind.bor ["x"] [] ("w")) = none :=
  ⟨c5_collapse_arity.2.1 ("x") rfl,
    (c5_collapse_arity.2.2.1 [("x", 5)] _ ("x") (Or.inr rfl) rfl rfl (by decide)).1,
    (c5_collapse_arity.2.2.1 [("x", 5)] _ ("x") (Or.inr rfl) rfl rfl (by decide)).2⟩

/-- Claim C6: an input containing a line that matches none of the
seven statement shapes makes resolution fail with a ParseError carrying
an (unparseable) offending line of the input; no fragment of a wire
value map is returned. -/
theorem c6_parse_error_fatal (input l : String) (hl : l ∈ pyLines input)
    (hbad : parse_line l = none) :
    ∃ l0, l0 ∈ pyLines input ∧ parse_line l0 = none ∧
      resolve_wire_values input = Except.error (CircuitError.parseError l0) := by
  obtain ⟨l0, hmem, hbad0, herr⟩ := parseLines_error_of_bad _ l hl hbad
  refine ⟨l0, hmem, hbad0, ?_⟩
  unfold resolve_wire_values
  rw [herr]

/-- Witness for C6: the canonical malformed line surfaces a ParseError
carrying that line. -/
theorem c6_witness :
    ∃ l0, l0 ∈ pyLines ("foo BAND bar -> baz") ∧ parse_line l0 = none ∧
      resolve_wire_values ("foo BAND bar -> baz")
        = Except.error (CircuitError.parseError l0) :=
  c6_parse_error_fatal ("foo BAND bar -> baz") ("foo BAND bar -> baz")
    (by decide) (by decide)

/-- Claim C7: for a 16-bit operand value, LSHIFT outputs the left
shift masked to 16 bits (hence a 16-bit result), and RSHIFT outputs
the unmasked right shift, which never exceeds its input. -/
theorem c7_shift_semantics (v k : Nat) (hv : v ≤ MAX_VALUE) :
    resolve_output_value (GateKind.lshift k) [v] = some ((v <<< k) &&& MAX_VALUE) ∧
    (v <<< k) &&& MAX_VALUE ≤ MAX_VALUE ∧
    resolve_output_value (GateKind.rshift k) [v] = some (v >>> k) ∧
    v >>> k ≤ v := by
  refine ⟨rfl, Nat.and_le_right, rfl, ?_⟩
  rw [Nat.shiftRight_eq_div_pow]
  exact Nat.div_le_self _ _

/-- Witness for C7 at v = 5, k = 2. -/
theorem c7_witness :
    resolve_output_value (GateKind.lshift 2) [5] = some ((5 <<< 2) &&& MAX_VALUE) ∧
    (5 <<< 2) &&& MAX_VALUE ≤ MAX_VALUE ∧
    resolve_output_value (GateKind.rshift 2) [5] = some (5 >>> 2) ∧
    5 >>> 2 ≤ 5 :=
  c7_shift_semantics 5 2 (by decide)

/-- Claim C8: the NOT gate computes the 16-bit complement 65535 - v,
and this is an involution on [0, 65535]. -/
theorem c8_not_involution (v : Nat) (hv : v ≤ MAX_VALUE) :
    resolve_output_value GateKind.bnot [v] = some (MAX_VALUE - v) ∧
    MAX_VALUE - (MAX_VALUE - v) = v :=
  ⟨rfl, Nat.sub_sub_self hv⟩

/-- Witness for C8 at v = 123. -/
theorem c8_witness :
    resolve_output_value GateKind.bnot [123] = some (MAX_VALUE - 123) ∧
    MAX_VALUE - (MAX_VALUE - 123) = 123 :=
  c8_not_involution 123 (by decide)

/-- Claim C9: LSHIFT then RSHIFT by the same amount k returns the
original value whenever the left shift loses no bits of the 16-bit
window, that is whenever v is below 2 to the power 16 - k. -/
theorem c9_shift_roundtrip (v k : Nat) (hv : v < 2 ^ (16 - k)) :
    resolve_output_value (GateKind.lshift k) [v] = some ((v <<< k) &&& MAX_VALUE) ∧
    resolve_output_value (GateKind.rshift k) [(v <<< k) &&& MAX_VALUE] = some v := by
  refine ⟨rfl, ?_⟩
  show some (((v <<< k) &&& MAX_VALUE) >>> k) = some v
  refine congrArg some ?_
  by_cases hk : k ≤ 16
  · have h1 : v <<< k < 2 ^ 16 := by
      rw [Nat.shiftLeft_eq]
      calc v * 2 ^ k < 2 ^ (16 - k) * 2 ^ k :=
            Nat.mul_lt_mul_of_lt_of_le hv (Nat.le_refl _) (Nat.pos_pow_of_pos k (by decide))
        _ = 2 ^ 16 := by rw [← Nat.pow_add, Nat.sub_add_cancel hk]
    have h2 : (v <<< k) &&& MAX_VALUE = v <<< k := by
      show (v <<< k) &&& 2 ^ 16 - 1 = v <<< k
      exact Nat.and_pow_two_sub_one_of_lt_two_pow h1
    rw [h2, Nat.shiftLeft_eq, Nat.shiftRight_eq_div_pow]
    exact Nat.mul_div_cancel v (Nat.pos_pow_of_pos k (by decide))
  · have hz : v = 0 := by
      have : 16 - k = 0 := Nat.sub_eq_zero_of_le (Nat.le_of_not_le hk)
      rw [this] at hv
      omega
    subst hz
    rw [Nat.zero_shiftLeft, Nat.zero_and, Nat.zero_shiftRight]

/-- Witness for C9 at v = 3, k = 2. -/
theorem c9_witness :
    resolve_output_value (GateKind.lshift 2) [3] = some ((3 <<< 2) &&& MAX_VALUE) ∧
    resolve_output_value (GateKind.rshift 2) [(3 <<< 2) &&& MAX_VALUE] = some 3 :=
  c9_shift_roundtrip 3 2 (by decide)

/-- Claim C10: resolution always terminates.  The fixpoint loop needs
at most one iteration per unresolved gate: with any budget at least the
gate count the loop result is already determined (each iteration
removes exactly one gate or exits with an error), and the loop always
exits within that budget. -/
theorem c10_loop_terminates (fuel : Nat) (m : WireMap) (L : List Gate)
    (h : L.length ≤ fuel) :
    loopF fuel m L = loopF L.length m L ∧ (loopF L.length m L).isSome = true :=
  ⟨loopF_stable fuel m L h, loopF_isSome_of_length L.length m L rfl⟩

/-- Witness for C10 on a concrete loop state. -/
theorem c10_witness :
    loopF 7 [("x", 1)] [Gate.mk GateKind.bnot ["x"] [] ("h")]
      = loopF 1 [("x", 1)] [Gate.mk GateKind.bnot ["x"] [] ("h")] ∧
    (loopF 1 [("x", 1)] [Gate.mk GateKind.bnot ["x"] [] ("h")]).isSome = true :=
  c10_loop_terminates 7 [("x", 1)] _ (by decide)

end Day7
